import Mathlib

/-!
Verification development for the datacollect repository.

The definitions below are shallow embeddings of the Rust sources:
`datacollect-core/src/common.rs` (currency and amount parsing, the hidden
word detector), `datacollect/src/modules/rdap.rs` (domain records, the
temporal state predicates, the RDAP lookup), and
`datacollect/src/modules/ebay.rs` (the paginated search crawler).
Strings are modeled as lists of characters; machine floats are modeled by
`F64` below; fallible Rust functions return `Option` or `Except`.
-/

namespace Datacollect

/-- DecidableEq for Except, needed so that concrete runs of the embedded
fallible functions can be settled by decide. -/
instance instDecEqExcept {ε α : Type} [DecidableEq ε] [DecidableEq α] :
    DecidableEq (Except ε α) := fun a b =>
  match a, b with
  | .error x, .error y =>
    if h : x = y then .isTrue (by rw [h]) else .isFalse (by intro hc; cases hc; exact h rfl)
  | .ok x, .ok y =>
    if h : x = y then .isTrue (by rw [h]) else .isFalse (by intro hc; cases hc; exact h rfl)
  | .error _, .ok _ => .isFalse (by intro hc; cases hc)
  | .ok _, .error _ => .isFalse (by intro hc; cases hc)

/-! ## Model of Rust f64 values produced by string parsing

Rust `str::parse::<f64>` is correctly rounded and returns `Ok` even when the
decimal literal overflows the double range: every literal whose exact value
reaches the IEEE-754 round-to-nearest overflow threshold parses to positive
infinity rather than to an error.  `F64` keeps an in-range parsed value as
the exact rational value of its decimal literal: rounding the literal to the
nearest double preserves sign and never changes a value by as much as a
cent for amounts below 4.5e13, and no theorem in this file depends on
finer-than-cent differences at larger magnitudes. -/

/-- Model of a Rust f64 obtained by parsing a decimal literal: a finite
value (kept as the exact rational value of the literal) or positive
infinity (produced on overflow). -/
inductive F64 where
  | val (q : ℚ)
  | inf
deriving DecidableEq, Repr

/-- Threshold of IEEE-754 double overflow under round-to-nearest-even:
this is (2^53 - 1/2) * 2^971 = (2^54 - 1) * 2^970; decimal literals with
exact value at or above it parse to positive infinity.  The number is
assembled in the natural numbers (kernel-computable) and cast. -/
def f64OverflowBound : ℚ := (((2 ^ 54 - 1) * 2 ^ 970 : ℕ) : ℚ)

/-- Outcome of parsing a nonnegative decimal literal of exact value q as a
Rust f64: infinity at or beyond the overflow threshold, otherwise the
(model-exact) finite value. -/
def roundF64 (q : ℚ) : F64 := if f64OverflowBound ≤ q then F64.inf else F64.val q

/-- Predicate tested by the Money invariant: a finite F64 value is
nonnegative.  Infinity is not ruled out by this predicate; finiteness is a
separate question. -/
def F64.Nonneg : F64 → Prop
  | .val q => 0 ≤ q
  | .inf => True

instance : DecidablePred F64.Nonneg := fun f =>
  match f with
  | .val q => (inferInstance : Decidable (0 ≤ q))
  | .inf => .isTrue trivial

/-! ## Character helpers

Rust `char::is_numeric` is modeled as the ASCII digit test.  This is exact
on ASCII input.  On non-ASCII input the real filter additionally keeps
other Unicode numeric characters, but any such character then makes the
subsequent f64 parse fail (the f64 grammar is ASCII), so which strings are
accepted, and the accepted value, agree with the source; theorems that
depend on the filter carry concrete or ASCII inputs. -/

/-- ASCII digit test; stands in for Rust char::is_numeric (see above). -/
def isAsciiDigit (c : Char) : Bool := '0' ≤ c && c ≤ '9'

/-- Numeric value of an ASCII digit, as in the usual base-10 read. -/
def digitVal (c : Char) : ℕ := c.toNat - '0'.toNat

/-- Base-10 value of a digit list, most significant digit first. -/
def digitsVal (l : List Char) : ℕ := l.foldl (fun a c => 10 * a + digitVal c) 0

/-- ASCII fragment of Rust char::is_whitespace (space, tab, line feed,
vertical tab, form feed, carriage return). -/
def isRustWhitespace (c : Char) : Bool :=
  c == ' ' || c == '\t' || c == '\n' || c == '\x0b' || c == '\x0c' || c == '\r'

/-- Model of Rust str::split with a character predicate: yields the pieces
between separator characters, keeping empty pieces, exactly as the Rust
iterator does. -/
def splitOnPred (p : Char → Bool) : List Char → List (List Char)
  | [] => [[]]
  | c :: rest =>
    let r := splitOnPred p rest
    if p c then [] :: r
    else
      match r with
      | [] => [[c]]
      | h :: t => (c :: h) :: t

/-! ## Structured-value parser: common.rs -/

/-- Parse of a decimal literal by Rust str::parse::<f64>, restricted to the
character set that survives the parse_dollars filter (digits and dots): an
optional integer part and an optional fraction part around at most one dot,
with at least one digit overall.  Non-digit characters (including non-ASCII
numeric characters kept by the real filter) make the parse fail, as in
Rust, where the f64 grammar admits only ASCII digits here.  The value is
the exact rational value of the literal (see F64 above). -/
def parseDecimal (s : List Char) : Option ℚ :=
  match splitOnPred (fun c => c == '.') s with
  | [a] =>
    if !a.isEmpty && a.all isAsciiDigit then some ((digitsVal a : ℚ)) else none
  | [a, b] =>
    if !(a ++ b).isEmpty && (a ++ b).all isAsciiDigit then
      some (mkRat ((digitsVal a * 10 ^ b.length + digitsVal b : ℕ) : ℤ) (10 ^ b.length))
    else none
  | _ => none

/-- The fraction value used by parseDecimal is the usual positional value
of the literal: integer part plus fraction part over the scale.  (The
definition assembles it with mkRat so that concrete instances compute in
the kernel; this lemma restates it with field operations.) -/
theorem parseDecimal_frac_value (a b : List Char) :
    (mkRat ((digitsVal a * 10 ^ b.length + digitsVal b : ℕ) : ℤ) (10 ^ b.length) : ℚ) =
      (digitsVal a : ℚ) + (digitsVal b : ℚ) / 10 ^ b.length := by
  rw [Rat.mkRat_eq_div]
  have h10 : ((10 : ℚ) ^ b.length) ≠ 0 := by positivity
  push_cast
  field_simp

/-- Embedding of common.rs parse_dollars: keep the numeric characters and
the dot, then parse the remainder as an f64.  Absence (None) models a
failed parse; the Rust function never panics and neither does this model
(it is total). -/
def parse_dollars (s : List Char) : Option F64 :=
  (parseDecimal (s.filter (fun c => isAsciiDigit c || c == '.'))).map roundF64

/-- Embedding of common.rs Currency, which currently knows only USD. -/
inductive Currency where
  | USD
deriving DecidableEq, Repr

/-- Embedding of Currency::from_abbreviation: lowercase the string, keep
only alphabetic characters, and accept the empty string, us, or usd as
USD.  Alphabetic filtering and lowercasing are the ASCII ones; inputs in
this development are ASCII. -/
def Currency.from_abbreviation (s : List Char) : Option Currency :=
  match String.mk ((s.map Char.toLower).filter Char.isAlpha) with
  | "" | "us" | "usd" => some Currency.USD
  | _ => none

/-- Embedding of Currency::from_price: split on whitespace and numeric
characters, and return the first nonempty piece recognized by
from_abbreviation. -/
def Currency.from_price (s : List Char) : Option Currency :=
  (splitOnPred (fun c => isRustWhitespace c || isAsciiDigit c) s).findSome?
    (fun t => if t.isEmpty then none else Currency.from_abbreviation t)

/-- Embedding of common.rs Money: a currency and an f64 amount. -/
structure Money where
  currency : Currency
  amount : F64
deriving DecidableEq, Repr

/-- Embedding of the FromStr impl for Money: currency from the whole
string (defaulting to USD), amount from the first whitespace-separated
nonempty token that parse_dollars accepts; an error when no token is
accepted. -/
def Money.from_str (s : List Char) : Except String Money :=
  let cur := (Currency.from_price s).getD Currency.USD
  match (splitOnPred isRustWhitespace s).findSome?
      (fun t => if t.isEmpty then none else parse_dollars t) with
  | some price => .ok ⟨cur, price⟩
  | none => .error "failed to find price"

/-- Observable interface of a schema_org::Scope as used by the TryFrom
impl for Money: the results of get_value on the price and priceCurrency
properties.  The navigator itself walks an HTML document; only the two
returned strings feed the conversion embedded below. -/
structure Scope where
  price : Option (List Char)
  priceCurrency : Option (List Char)

/-- Embedding of the TryFrom Scope impl for Money: read the price value
(error when absent); when priceCurrency resolves to a currency, parse the
price with parse_dollars (error when that fails), otherwise fall back to
the FromStr parse of the price string. -/
def Money.try_from_scope (scope : Scope) : Except String Money :=
  match scope.price with
  | none => .error "could not get price of item through schema.org microdata"
  | some price =>
    match scope.priceCurrency.bind Currency.from_abbreviation with
    | some cur =>
      match parse_dollars price with
      | some dollars => .ok ⟨cur, dollars⟩
      | none => .error "could not parse currency amount"
    | none => Money.from_str price

/-! ## Obfuscation detector: common.rs has_hidden_word

The Rust function folds over the haystack characters, holding the unmatched
remainder of the needle as a string slice; on a character match it chops the
slice with a byte index: the slice acc[1..].  That byte slicing panics when
byte index 1 is not a UTF-8 character boundary, i.e. exactly when the first
remaining needle character occupies more than one byte.  The step function
below returns none to model the panic; while the accumulator is alive it is
always character-aligned, so a character list represents it faithfully. -/

/-- One fold step of has_hidden_word at the level of characters, ignoring
the byte-slicing panic (the idealized semantics). -/
def hhwStep (acc : List Char) (c : Char) : List Char :=
  match acc with
  | [] => []
  | a :: rest => if c == a then rest else a :: rest

/-- Idealized character-level semantics of has_hidden_word: greedy
subsequence matching of the needle against the haystack. -/
def hasHiddenWordChars (needle haystack : List Char) : Bool :=
  (haystack.foldl hhwStep needle).isEmpty

/-- One fold step of has_hidden_word including the Rust byte slicing: on a
match the remaining needle is sliced at byte index 1, which panics (none)
when the matched character occupies more than one UTF-8 byte. -/
def hhwStepRs (acc : Option (List Char)) (c : Char) : Option (List Char) :=
  match acc with
  | none => none
  | some [] => some []
  | some (a :: rest) =>
    if c == a then
      if a.utf8Size = 1 then some rest else none
    else some (a :: rest)

/-- Embedding of common.rs has_hidden_word on character lists, with none
modeling the byte-slicing panic. -/
def hasHiddenWordRs (needle haystack : List Char) : Option Bool :=
  (haystack.foldl hhwStepRs (some needle)).map List.isEmpty

/-- Embedding of common.rs has_hidden_word on strings; none models the
byte-slicing panic. -/
def has_hidden_word (needle haystack : String) : Option Bool :=
  hasHiddenWordRs needle.data haystack.data

/-! ## Temporal state engine: modules/rdap.rs

Event dates are modeled as integers counting nanoseconds since the epoch:
chrono DateTime<Utc> values carry nanosecond precision, and the two
granularities of the source are kept distinct — the DateTime comparisons
`e.event_date < now` are full precision, while the sort key of
events_in_time_backwards is `timestamp_millis()`, which truncates (floor)
to the millisecond and is embedded as msKey below.  Two events with
distinct sub-millisecond times inside one millisecond therefore tie under
the sort key, and the stable sort keeps their original vec order. -/

/-- Embedding of rdap.rs Event: an action name, an optional actor, and a
timestamp at full (nanosecond) precision. -/
structure Event where
  event_action : String
  event_actor : Option String
  event_date : Int
deriving DecidableEq, Repr

/-- Embedding of the chrono timestamp_millis sort key of an event: floor
division of the nanosecond instant to milliseconds (chrono timestamp and
timestamp_subsec_millis floor toward minus infinity for pre-epoch
instants, hence fdiv). -/
def msKey (e : Event) : Int := e.event_date.fdiv 1000000

/-- Embedding of rdap.rs DomainRecord: the list of events, unordered as
fetched. -/
structure DomainRecord where
  events : List Event
deriving DecidableEq, Repr

/-- Embedding of DomainRecord::events_in_time_backwards: a stable sort of
the events by descending millisecond key (the source sorts by the key
minus timestamp_millis with the stable Vec::sort_by_key; insertionSort is
a stable sort realizing the same descending-by-key order, and on key ties
— in particular events inside the same millisecond — it keeps the
original order exactly as the source does). -/
def DomainRecord.events_in_time_backwards (r : DomainRecord) : List Event :=
  List.insertionSort (fun a b => msKey b ≤ msKey a) r.events

/-- Lock outcome of an event action, exactly the match arms in
is_locked_at: locked maps to true, unlocked to false, everything else is
not recognized. -/
def lockOutcome : String → Option Bool
  | "locked" => some true
  | "unlocked" => some false
  | _ => none

/-- Registration outcome of an event action, exactly the match arms in
is_registered_at. -/
def regOutcome : String → Option Bool
  | "reregistration" => some true
  | "registration" => some true
  | "reinstantiation" => some true
  | "transfer" => some true
  | "expiration" => some false
  | "deletion" => some false
  | _ => none

/-- Embedding of DomainRecord::is_locked_at: walk the events in descending
time order, keep those strictly before the instant, and take the outcome
of the first one with a recognized lock action; false when there is
none. -/
def DomainRecord.is_locked_at (r : DomainRecord) (now : Int) : Bool :=
  ((r.events_in_time_backwards.filter (fun e => decide (e.event_date < now))).findSome?
    (fun e => lockOutcome e.event_action)).getD false

/-- Embedding of DomainRecord::is_registered_at, same walk with the
registration action table. -/
def DomainRecord.is_registered_at (r : DomainRecord) (now : Int) : Bool :=
  ((r.events_in_time_backwards.filter (fun e => decide (e.event_date < now))).findSome?
    (fun e => regOutcome e.event_action)).getD false

/-- Embedding of DomainRecord::is_buyable_at: neither registered nor
locked at the instant. -/
def DomainRecord.is_buyable_at (r : DomainRecord) (now : Int) : Bool :=
  !(r.is_registered_at now || r.is_locked_at now)

/-- Observable content of the HTTP response in DomainRecord::get: the
status code, and the outcome of parsing the body as DomainRecord JSON
(some on parse success).  The source calls res.json() on every non-404
response without checking the status for success. -/
structure RdapResponse where
  status : ℕ
  body : Option DomainRecord
deriving DecidableEq, Repr

/-- Embedding of DomainRecord::get over the observable response: a send
failure propagates; a 404 response maps to ok-none without reading the
body; any other status has its body parsed as JSON, giving ok-some on
parse success and an error on parse failure.  No status check beyond the
404 test is performed, exactly as in the source. -/
def DomainRecord.get (res : Except String RdapResponse) :
    Except String (Option DomainRecord) :=
  match res with
  | .error e => .error e
  | .ok r =>
    if r.status = 404 then .ok none
    else
      match r.body with
      | some rec => .ok (some rec)
      | none => .error "could not read or parse the JSON body"

/-! ## Streaming pagination crawler: modules/ebay.rs Product::search

The crawler is embedded against an abstract site: what each listing page
yields (the collected id and sponsored-flag pairs, or the error of the
listing fetch and parse), and what each detail fetch by id yields (the
Product that by_id would build, or its error).  The combinator pipeline in
the source (stream::iter(1..).then(...), take_while ok, filter_map ok,
flatten) is pull-driven and strictly sequential: the future for page n+1
is polled only after the inner stream of page n is exhausted, detail
fetches within a page are serialized behind the client lock and the
per-page delay, so a deterministic page-by-page run is a faithful
semantics.  The crucial detail kept from the source: the success flag ok
and the client are created inside the per-page closure, so every page gets
a fresh flag initialized to true, and the bail-out check at the top of the
page future reads that fresh flag, set to false only later (after the ids
of the page are collected) and back to true by any successful detail fetch
of the same page; no state survives from one page to the next. -/

/-- Embedding of ebay.rs Seller. -/
structure Seller where
  name : String
  feedback : Option F64
deriving DecidableEq, Repr

/-- Embedding of ebay.rs Product. -/
structure Product where
  name : String
  seller : Option Seller
  price : Option Money
  sponsored : Option Bool
deriving DecidableEq, Repr

/-- Abstract search site: the outcome of fetching and parsing listing page
n (the id and sponsored pairs collected from it), and the outcome of the
detail fetch Product::by_id for a given id. -/
structure SearchSite where
  listing : ℕ → Except String (List (ℕ × Bool))
  detail : ℕ → Except String Product

/-- Outcome of processing one listing page: the stream items produced for
the page (one Result per id, in page order), the ids whose detail pages
were fetched, and the final value of the per-page success flag (which the
source never reads again). -/
structure PageRun where
  items : List (Except String Product)
  detailsAttempted : List ℕ
  okFinal : Bool
deriving DecidableEq, Repr

/-- One detail fetch from the inner stream of a page: an error becomes an
error item and leaves the flag unchanged; a success is tagged with the
sponsored flag of the listing entry, becomes an ok item, and sets the
flag. -/
def detailFetch (site : SearchSite) (ok : Bool) (id : ℕ) (sponsored : Bool) :
    Except String Product × Bool :=
  match site.detail id with
  | .error e => (.error e, ok)
  | .ok p => (.ok { p with sponsored := some sponsored }, true)

/-- Embedding of the per-page future of Product::search.  The flag ok is
created fresh (true) for this page, as in the source closure; the bail-out
check reads it immediately; the listing page is fetched and parsed into id
pairs (an error here is the error of the page future); the flag is then
set to false, and the detail fetches of the page run in order, each
yielding one stream item. -/
def runPage (site : SearchSite) (page : ℕ) : Except String PageRun :=
  let ok := true
  if ok = false then .error "something failed; pages ended, maybe?"
  else
    match site.listing page with
    | .error e => .error e
    | .ok ids =>
      let ok := false
      let fin := ids.foldl
        (fun (st : List (Except String Product) × List ℕ × Bool) idsp =>
          let r := detailFetch site st.2.2 idsp.1 idsp.2
          (st.1 ++ [r.1], st.2.1 ++ [idsp.1], r.2))
        ([], [], ok)
      .ok ⟨fin.1, fin.2.1, fin.2.2⟩

/-- Trace of driving the search stream: the items the consumer receives,
the listing pages fetched, the detail pages fetched, and whether the
stream has ended (take_while saw an erroring page future). -/
structure SearchTrace where
  emitted : List (Except String Product)
  listingFetched : List ℕ
  detailsAttempted : List ℕ
  ended : Bool
deriving DecidableEq, Repr

/-- Drive the search stream for a given number of pages starting at the
given page number: each page future either errors (take_while then ends
the stream; nothing of that page is emitted, though its listing fetch
happened) or contributes its items in order before the next page runs. -/
def searchRunFrom (site : SearchSite) : ℕ → ℕ → SearchTrace
  | 0, _ => ⟨[], [], [], false⟩
  | fuel + 1, page =>
    match runPage site page with
    | .error _ => ⟨[], [page], [], true⟩
    | .ok pr =>
      let rest := searchRunFrom site fuel (page + 1)
      ⟨pr.items ++ rest.emitted, page :: rest.listingFetched,
        pr.detailsAttempted ++ rest.detailsAttempted, rest.ended⟩

/-- Embedding of Product::search: the trace of the stream when the
consumer demands enough items to drive the given number of listing pages.
Pagination starts at page 1. -/
def Product.search (site : SearchSite) (fuel : ℕ) : SearchTrace :=
  searchRunFrom site fuel 1

/-! ## Helper lemmas about the obfuscation detector -/

/-- Once the needle is exhausted the fold keeps the empty accumulator. -/
theorem hhwFold_nil (hs : List Char) : hs.foldl hhwStep [] = [] := by
  induction hs with
  | nil => rfl
  | cons c t ih => simpa [hhwStep] using ih

/-- The step result only holds characters of the incoming accumulator. -/
theorem hhwStep_subset (n : List Char) (c : Char) : ∀ ch ∈ hhwStep n c, ch ∈ n := by
  cases n with
  | nil => intro ch hch; cases hch
  | cons a rest =>
    intro ch hch
    simp only [hhwStep] at hch
    by_cases hc : (c == a) = true
    · rw [if_pos hc] at hch; exact List.mem_cons_of_mem _ hch
    · rw [if_neg hc] at hch; exact hch

/-- Correctness of the greedy character-level scan: the needle is consumed
exactly when it is a subsequence of the haystack. -/
theorem hasHiddenWordChars_iff (needle haystack : List Char) :
    hasHiddenWordChars needle haystack = true ↔ needle.Sublist haystack := by
  induction haystack generalizing needle with
  | nil =>
    cases needle with
    | nil => simp [hasHiddenWordChars]
    | cons a ns => simp [hasHiddenWordChars, List.sublist_nil]
  | cons c hs ih =>
    cases needle with
    | nil => simp [hasHiddenWordChars, hhwFold_nil, List.nil_sublist, hhwStep]
    | cons a ns =>
      by_cases hca : c = a
      · subst hca
        have hred : hasHiddenWordChars (c :: ns) (c :: hs) = hasHiddenWordChars ns hs := by
          simp [hasHiddenWordChars, hhwStep]
        rw [hred, ih, List.cons_sublist_cons]
      · have hne : (c == a) = false := by
          rcases Bool.eq_false_or_eq_true (c == a) with ht | hf
          · exact absurd (eq_of_beq ht) hca
          · exact hf
        have hred : hasHiddenWordChars (a :: ns) (c :: hs) = hasHiddenWordChars (a :: ns) hs := by
          simp [hasHiddenWordChars, hhwStep, hne]
        rw [hred, ih]
        constructor
        · intro hsub; exact hsub.cons c
        · intro hsub
          cases hsub with
          | cons _ h2 => exact h2
          | cons₂ _ h2 => exact absurd rfl hca

/-- While every remaining needle character is a single UTF-8 byte, the
byte-faithful fold never panics and agrees with the character-level
fold. -/
theorem hhwFoldRs_eq (haystack : List Char) :
    ∀ needle : List Char, (∀ ch ∈ needle, ch.utf8Size = 1) →
      haystack.foldl hhwStepRs (some needle) = some (haystack.foldl hhwStep needle) := by
  induction haystack with
  | nil => intro n _; rfl
  | cons c hs ih =>
    intro n h
    have hstep : hhwStepRs (some n) c = some (hhwStep n c) := by
      cases n with
      | nil => rfl
      | cons a rest =>
        simp only [hhwStepRs, hhwStep]
        by_cases hc : (c == a) = true
        · simp [hc, h a (List.mem_cons_self a rest)]
        · simp [hc]
    rw [List.foldl_cons, List.foldl_cons, hstep]
    exact ih (hhwStep n c) (fun ch hch => h ch (hhwStep_subset n c ch hch))

/-- On needles made of single-byte characters the embedded function
returns the greedy character-level answer rather than panicking. -/
theorem hasHiddenWordRs_eq (needle haystack : List Char)
    (h : ∀ ch ∈ needle, ch.utf8Size = 1) :
    hasHiddenWordRs needle haystack = some (hasHiddenWordChars needle haystack) := by
  unfold hasHiddenWordRs hasHiddenWordChars
  rw [hhwFoldRs_eq haystack needle h]
  rfl

/-! ## Concrete records and sites used by the claims -/

/-- Event list of the temporal test in the spec: registration at t=0,
locked at t=10, unlocked at t=20.  The abstract instants t=k of the claim
are realized as k milliseconds, i.e. k * 10^6 nanoseconds, so that they
are distinct under the millisecond sort key exactly as the claim
intends. -/
def testRec : DomainRecord :=
  ⟨[⟨"registration", none, 0⟩, ⟨"locked", none, 10000000⟩, ⟨"unlocked", none, 20000000⟩]⟩

/-- Record exhibiting the sub-millisecond granularity mismatch: a
registration 100 nanoseconds after the epoch and an expiration 900
nanoseconds after the epoch — distinct full-precision times inside the
same millisecond, listed with the older event first. -/
def subMsRec : DomainRecord :=
  ⟨[⟨"registration", none, 100⟩, ⟨"expiration", none, 900⟩]⟩

/-- A domain record with no events, used as a parseable RDAP body. -/
def emptyRecord : DomainRecord := ⟨[]⟩

/-- A bare product as Product::by_id would build it (no seller, no price,
sponsored unset). -/
def prodOf (n : String) : Product := ⟨n, none, none, none⟩

/-- Site for C1: listing page 1 yields zero ids, page 2 yields one id
whose detail fetch succeeds, later pages are empty. -/
def siteC1 : SearchSite where
  listing p := if p = 1 then .ok [] else if p = 2 then .ok [(7, false)] else .ok []
  detail id := if id = 7 then .ok (prodOf "widget") else .error "no such item"

/-- Site for C2: page 1 yields a record, page 2 yields zero ids, page 3
yields another record. -/
def siteC2 : SearchSite where
  listing p :=
    if p = 1 then .ok [(1, false)]
    else if p = 2 then .ok []
    else if p = 3 then .ok [(3, true)]
    else .ok []
  detail id :=
    if id = 1 then .ok (prodOf "alpha")
    else if id = 3 then .ok (prodOf "gamma")
    else .error "no such item"

/-- Site for C3: one listing page with two ids; the first detail fetch
fails, the second succeeds. -/
def siteC3 : SearchSite where
  listing p := if p = 1 then .ok [(1, false), (2, true)] else .ok []
  detail id := if id = 2 then .ok (prodOf "beta") else .error "boom"

/-! ## Claim C1 -/

/-- C1 (code bug in the source): the claim says a search whose first
listing page yields zero result ids terminates the stream with zero
emitted records and no detail fetch attempted.  In the source the success
flag is created anew (true) inside the per-page closure, so the bail-out
check at the top of each page future always reads a fresh true flag and
never fires; after the empty page 1 the crawler therefore fetches listing
page 2, attempts the detail fetch of its id 7, and emits that record, and
the stream has not ended.  This run of the embedding evaluates the code on
the failing input. -/
theorem c1_empty_first_page_continues :
    Product.search siteC1 2 =
      ⟨[.ok ⟨"widget", none, none, some false⟩], [1, 2], [7], false⟩ := by
  rfl

/-! ## Claim C2 -/

/-- C2 (code bug in the source): the claim says a search whose page 1
yields records and whose page 2 yields zero result ids terminates after
emitting the records of page 1, never fetching listing page 3.  Because
the success flag is per-page (see C1), the embedded run fetches listing
pages 1, 2 and 3, emits the records of both page 1 and page 3, and has not
ended. -/
theorem c2_empty_later_page_continues :
    Product.search siteC2 3 =
      ⟨[.ok ⟨"alpha", none, none, some false⟩, .ok ⟨"gamma", none, none, some true⟩],
       [1, 2, 3], [1, 3], false⟩ := by
  rfl

/-! ## Claim C3 -/

/-- C3 counterexample: the claim says a consumer of the search stream
observes only successfully extracted records followed by end-of-stream,
never an explicit per-item error value mid-stream.  On a page whose first
detail fetch fails and whose second succeeds, the embedded stream emits an
explicit error item and then a success item: per-item detail errors are
forwarded to the consumer, not filtered out. -/
theorem c3_counterexample :
    (Product.search siteC3 1).emitted =
      [.error "boom", .ok ⟨"beta", none, none, some true⟩] := by
  rfl

/-- The first component of the detail fold of a page: one item per id, in
page order, each the mapped outcome of the detail fetch of that id. -/
theorem pageFold_items (site : SearchSite) (ids : List (ℕ × Bool)) :
    ∀ acc : List (Except String Product) × List ℕ × Bool,
      (ids.foldl
        (fun (st : List (Except String Product) × List ℕ × Bool) idsp =>
          let r := detailFetch site st.2.2 idsp.1 idsp.2
          (st.1 ++ [r.1], st.2.1 ++ [idsp.1], r.2)) acc).1 =
      acc.1 ++ ids.map (fun i => (site.detail i.1).map
        (fun p => { p with sponsored := some i.2 })) := by
  induction ids with
  | nil => intro acc; simp
  | cons i t ih =>
    intro acc
    rw [List.foldl_cons, ih]
    have hfst : (detailFetch site acc.2.2 i.1 i.2).1 =
        (site.detail i.1).map (fun p => { p with sponsored := some i.2 }) := by
      cases h : site.detail i.1 <;> simp [detailFetch, h, Except.map]
    simp [hfst, List.append_assoc]

/-- C3 (amended): an error from an individual detail fetch is not filtered
out of the stream: every id on a successfully parsed listing page yields
exactly one stream item, in page order — an Ok record (tagged with the
sponsored flag) when the detail fetch succeeds and an explicit error item
when it fails — so a failed detail fetch does not stop the processing of
the remaining ids, and the consumer does observe per-item error values
mid-stream.  (Only a listing-page error is withheld from the output and
ends the stream; a direct by_id lookup surfaces its error directly.) -/
theorem c3_detail_errors_are_emitted (site : SearchSite) (page : ℕ)
    (ids : List (ℕ × Bool)) (h : site.listing page = .ok ids) :
    (runPage site page).map PageRun.items =
      .ok (ids.map fun i => (site.detail i.1).map
        (fun p => { p with sponsored := some i.2 })) := by
  unfold runPage
  rw [h]
  simp [pageFold_items, Except.map]

/-- Witness for C3: the page of siteC3, whose first detail fetch errors and
whose second succeeds, produces exactly the error item followed by the
success item. -/
theorem c3_witness :
    (runPage siteC3 1).map PageRun.items =
      .ok [(siteC3.detail 1).map (fun p => { p with sponsored := some false }),
           (siteC3.detail 2).map (fun p => { p with sponsored := some true })] :=
  c3_detail_errors_are_emitted siteC3 1 [(1, false), (2, true)] rfl

/-! ## Claim C4 -/

/-- C4 counterexample: with events registration at t=0, locked at t=10 and
unlocked at t=20, the claim asserts is_buyable_at 25 = true; but the
domain is still registered at t=25 (the registration at t=0 was never
followed by expiration or deletion), so is_buyable_at 25 is false and the
asserted conjunction fails.  (Instants t=k are k milliseconds, i.e.
k * 10^6 nanoseconds.) -/
theorem c4_counterexample :
    ¬ (testRec.is_locked_at 15000000 = true ∧ testRec.is_locked_at 25000000 = false ∧
       testRec.is_registered_at 5000000 = true ∧ testRec.is_buyable_at 25000000 = true) := by
  decide

/-- C4 (amended): for the event list [registration t=0, locked t=10,
unlocked t=20]: is_locked_at 15 = true, is_locked_at 25 = false,
is_registered_at 5 = true, and is_buyable_at 25 = false (not true as the
claim stated: the record is still registered at t=25, and isBuyableAt is
the negation of registered-or-locked, per the own algorithm of the
spec). -/
theorem c4_temporal_examples :
    testRec.is_locked_at 15000000 = true ∧ testRec.is_locked_at 25000000 = false ∧
    testRec.is_registered_at 5000000 = true ∧ testRec.is_buyable_at 25000000 = false := by
  decide

/-! ## Claim C5 -/

/-- Statement that an event is, among the events of the record bearing a
recognized action (per the outcome table f) and lying strictly before the
instant, the one with the latest full-precision timestamp, and that any
recognized prior event sharing that exact timestamp has the same outcome.
This is the notion of most recent that the claim asserts; the
counterexample below shows the code does not honor it at sub-millisecond
granularity. -/
def MostRecentRelevant (evs : List Event) (f : String → Option Bool) (now : Int)
    (e : Event) (b : Bool) : Prop :=
  e ∈ evs ∧ e.event_date < now ∧ f e.event_action = some b ∧
    ∀ e2 ∈ evs, e2.event_date < now → f e2.event_action ≠ none →
      e2.event_date ≤ e.event_date ∧ (e2.event_date = e.event_date → f e2.event_action = some b)

instance (evs : List Event) (f : String → Option Bool) (now : Int) (e : Event) (b : Bool) :
    Decidable (MostRecentRelevant evs f now e b) := by
  unfold MostRecentRelevant
  infer_instance

/-- Statement that an event is, among the recognized events of the record
lying strictly (full-precision) before the instant, one with the maximal
millisecond sort key, and that recognized prior events sharing that
millisecond agree on the outcome (inside one millisecond the original vec
order, not time, decides which one the code sees first, so agreement is
what makes the outcome well defined).  This is the recency notion the
code actually implements. -/
def MostRecentRelevantMs (evs : List Event) (f : String → Option Bool) (now : Int)
    (e : Event) (b : Bool) : Prop :=
  e ∈ evs ∧ e.event_date < now ∧ f e.event_action = some b ∧
    ∀ e2 ∈ evs, e2.event_date < now → f e2.event_action ≠ none →
      msKey e2 ≤ msKey e ∧ (msKey e2 = msKey e → f e2.event_action = some b)

instance (evs : List Event) (f : String → Option Bool) (now : Int) (e : Event) (b : Bool) :
    Decidable (MostRecentRelevantMs evs f now e b) := by
  unfold MostRecentRelevantMs
  infer_instance

/-- In a list sorted by descending millisecond key, the first recognized
event gives the outcome of a key-maximal recognized entry, provided
recognized entries sharing the maximal key agree. -/
theorem findSome?_of_sorted_desc (f : String → Option Bool) (b : Bool) (l : List Event)
    (hs : l.Pairwise (fun a c => msKey c ≤ msKey a)) (e : Event) (he : e ∈ l)
    (hf : f e.event_action = some b)
    (hmax : ∀ e2 ∈ l, f e2.event_action ≠ none →
      msKey e2 ≤ msKey e ∧ (msKey e2 = msKey e → f e2.event_action = some b)) :
    l.findSome? (fun x => f x.event_action) = some b := by
  induction l with
  | nil => cases he
  | cons h t ih =>
    rw [List.findSome?_cons]
    cases hfh : f h.event_action with
    | some b2 =>
      have hb2 : b2 = b := by
        rcases List.mem_cons.mp he with rfl | het
        · rw [hf] at hfh
          exact (Option.some.injEq _ _ ▸ hfh).symm
        · have h1 : msKey e ≤ msKey h := (List.pairwise_cons.mp hs).1 e het
          have h2 := hmax h (List.mem_cons_self h t) (by rw [hfh]; exact fun hc => Option.noConfusion hc)
          have heq : msKey h = msKey e := le_antisymm h2.1 h1
          have hsb := h2.2 heq
          rw [hfh] at hsb
          exact Option.some.injEq _ _ ▸ hsb
      rw [hb2]
    | none =>
      have het : e ∈ t := by
        rcases List.mem_cons.mp he with rfl | het
        · rw [hf] at hfh; cases hfh
        · exact het
      exact ih (List.pairwise_cons.mp hs).2 het
        (fun e2 he2 hne => hmax e2 (List.mem_cons_of_mem _ he2) hne)

/-- The sorted event walk is pairwise descending by millisecond key. -/
theorem eitb_pairwise (r : DomainRecord) :
    r.events_in_time_backwards.Pairwise (fun a c : Event => msKey c ≤ msKey a) := by
  haveI : IsTotal Event (fun a c : Event => msKey c ≤ msKey a) :=
    ⟨fun a c => Int.le_total (msKey c) (msKey a)⟩
  haveI : IsTrans Event (fun a c : Event => msKey c ≤ msKey a) :=
    ⟨fun _ _ _ hab hbc => le_trans hbc hab⟩
  exact List.sorted_insertionSort _ r.events

/-- Membership in the sorted walk is membership in the event list. -/
theorem eitb_mem (r : DomainRecord) (e : Event) :
    e ∈ r.events_in_time_backwards ↔ e ∈ r.events :=
  (List.perm_insertionSort _ r.events).mem_iff

/-- Generic form of the two temporal predicates (the filtered descending
walk with an outcome table): value when a most recent recognized prior
event exists. -/
theorem stateAt_eq_of_mostRecent (r : DomainRecord) (f : String → Option Bool) (now : Int)
    (e : Event) (b : Bool) (hm : MostRecentRelevantMs r.events f now e b) :
    ((r.events_in_time_backwards.filter (fun e => decide (e.event_date < now))).findSome?
      (fun e => f e.event_action)).getD false = b := by
  obtain ⟨hmem, hlt, hact, hmax⟩ := hm
  have hpair : (r.events_in_time_backwards.filter
      (fun e => decide (e.event_date < now))).Pairwise
      (fun a c : Event => msKey c ≤ msKey a) :=
    List.Pairwise.filter _ (eitb_pairwise r)
  have hemem : e ∈ r.events_in_time_backwards.filter (fun e => decide (e.event_date < now)) := by
    rw [List.mem_filter, eitb_mem]
    exact ⟨hmem, by simpa using hlt⟩
  have hfind := findSome?_of_sorted_desc f b _ hpair e hemem hact (by
    intro e2 he2 hne
    rw [List.mem_filter, eitb_mem] at he2
    exact hmax e2 he2.1 (by simpa using he2.2) hne)
  rw [hfind]
  rfl

/-- Generic form of the two temporal predicates: false when no recognized
event lies strictly before the instant. -/
theorem stateAt_eq_false_of_none (r : DomainRecord) (f : String → Option Bool) (now : Int)
    (hnone : ∀ e ∈ r.events, e.event_date < now → f e.event_action = none) :
    ((r.events_in_time_backwards.filter (fun e => decide (e.event_date < now))).findSome?
      (fun e => f e.event_action)).getD false = false := by
  have : (r.events_in_time_backwards.filter (fun e => decide (e.event_date < now))).findSome?
      (fun e => f e.event_action) = none := by
    rw [List.findSome?_eq_none_iff]
    intro x hx
    rw [List.mem_filter, eitb_mem] at hx
    exact hnone x hx.1 (by simpa using hx.2)
  rw [this]
  rfl

/-- C5 counterexample: the claim says the predicates return the outcome
of the most recent recognized event strictly before the instant.  On
subMsRec the expiration at 900 nanoseconds is the most recent recognized
registration-relevant event strictly before the two-millisecond instant,
at full precision and uniquely so, with outcome false; but the sort key
timestamp_millis truncates both events to millisecond 0, the stable sort
keeps the vec order with the older registration first, and the code
returns true — the outcome of an event that is not the most recent
one. -/
theorem c5_counterexample :
    MostRecentRelevant subMsRec.events regOutcome 2000000 ⟨"expiration", none, 900⟩ false ∧
    subMsRec.is_registered_at 2000000 = true := by
  constructor
  · decide
  · decide

/-- C5 (amended): for every DomainRecord and instant, is_registered_at
(resp. is_locked_at) returns the outcome of the most recent — recency
measured by the millisecond sort key timestamp_millis, not by the
full-precision time — event strictly (full-precision) before the instant
whose action is recognized by the registration table (registration,
reregistration, reinstantiation, transfer mapping to true; expiration,
deletion to false) resp. the lock table (locked to true, unlocked to
false), events with unrecognized actions being skipped without altering
the outcome; and false when no recognized event lies strictly before the
instant.  (Among recognized prior events of the same millisecond the
original vec order decides, so the MostRecentRelevantMs hypothesis
requires them to agree on the outcome; sub-millisecond time order within
a millisecond is not respected, see the counterexample.) -/
theorem c5_state_from_most_recent_event (r : DomainRecord) (now : Int) :
    ((∀ e ∈ r.events, e.event_date < now → regOutcome e.event_action = none) →
      r.is_registered_at now = false)
  ∧ (∀ e b, MostRecentRelevantMs r.events regOutcome now e b → r.is_registered_at now = b)
  ∧ ((∀ e ∈ r.events, e.event_date < now → lockOutcome e.event_action = none) →
      r.is_locked_at now = false)
  ∧ (∀ e b, MostRecentRelevantMs r.events lockOutcome now e b → r.is_locked_at now = b) := by
  refine ⟨?_, ?_, ?_, ?_⟩
  · intro hn; exact stateAt_eq_false_of_none r regOutcome now hn
  · intro e b hm; exact stateAt_eq_of_mostRecent r regOutcome now e b hm
  · intro hn; exact stateAt_eq_false_of_none r lockOutcome now hn
  · intro e b hm; exact stateAt_eq_of_mostRecent r lockOutcome now e b hm

/-- Witness for C5: on the concrete test record, the locked event at 10
milliseconds is the most recent recognized lock event before 15
milliseconds, and the registration at 0 is the most recent recognized
registration event before 25 milliseconds. -/
theorem c5_witness :
    testRec.is_locked_at 15000000 = true ∧ testRec.is_registered_at 25000000 = true := by
  constructor
  · exact (c5_state_from_most_recent_event testRec 15000000).2.2.2
      ⟨"locked", none, 10000000⟩ true (by decide)
  · exact (c5_state_from_most_recent_event testRec 25000000).2.1
      ⟨"registration", none, 0⟩ true (by decide)

/-! ## Claim C6 -/

/-- C6 counterexample: the claim quantifies over every needle and haystack
string.  For the one-character needle and haystack consisting of U+00E9, a
two-byte character, the needle is a subsequence of the haystack, but the
source function does not return true: it panics when slicing the needle at
byte index 1 (the embedding returns none), so the claimed equivalence
fails at this input. -/
theorem c6_counterexample :
    ¬ (has_hidden_word (String.mk [Char.ofNat 233]) (String.mk [Char.ofNat 233]) = some true ↔
       (String.mk [Char.ofNat 233]).data.Sublist (String.mk [Char.ofNat 233]).data) := by
  intro hiff
  have hmem := hiff.mpr (List.Sublist.refl _)
  exact absurd hmem (by decide)

/-- C6 (amended): for every needle all of whose characters are single
UTF-8 bytes (in particular every ASCII needle, such as the only needle the
repository uses), has_hidden_word returns true exactly when the needle
characters appear in order as a subsequence of the haystack; and the four
concrete examples of the claim hold. -/
theorem c6_hidden_word_subsequence :
    (∀ needle haystack : String, (∀ ch ∈ needle.data, ch.utf8Size = 1) →
      (has_hidden_word needle haystack = some true ↔ needle.data.Sublist haystack.data))
  ∧ has_hidden_word "cookie" "cooOOOkie" = some true
  ∧ has_hidden_word "cookie" "cookie" = some true
  ∧ has_hidden_word "baking cookies" "some cookie baking" = some false
  ∧ has_hidden_word "candy canes" "candy" = some false := by
  refine ⟨?_, by decide, by decide, by decide, by decide⟩
  intro needle haystack hn
  rw [has_hidden_word, hasHiddenWordRs_eq _ _ hn]
  simp only [Option.some.injEq]
  exact hasHiddenWordChars_iff _ _

/-- Witness for C6: the equivalence applied to a concrete ASCII needle and
haystack. -/
theorem c6_witness :
    has_hidden_word "cat" "XcYaZt" = some true ↔ "cat".data.Sublist "XcYaZt".data :=
  c6_hidden_word_subsequence.1 "cat" "XcYaZt" (by decide)

/-! ## Claim C7 -/

/-- C7 counterexample: the claim says every non-success status other than
404 yields an error, never an Ok value.  The source parses the body of
every non-404 response without checking the status, so a status 500
response whose body parses as a DomainRecord yields Ok(Some(record)). -/
theorem c7_counterexample :
    DomainRecord.get (.ok ⟨500, some emptyRecord⟩) = .ok (some emptyRecord) := by
  rfl

/-- C7 (amended): DomainRecord::get returns Ok(None) exactly when the
resolver responds with HTTP 404; for every other status, success or not,
the body is parsed as JSON, giving Ok(Some(record)) on parse success and
an error only on send or parse failure; a send error propagates as an
error. -/
theorem c7_get_classification (res : RdapResponse) :
    (DomainRecord.get (.ok res) = .ok none ↔ res.status = 404)
  ∧ (res.status ≠ 404 → DomainRecord.get (.ok res) =
      match res.body with
      | some rec => .ok (some rec)
      | none => .error "could not read or parse the JSON body")
  ∧ (∀ e : String, DomainRecord.get (.error e) = .error e) := by
  refine ⟨?_, ?_, fun e => rfl⟩
  · by_cases h : res.status = 404
    · simp [DomainRecord.get, h]
    · cases hb : res.body <;> simp [DomainRecord.get, h, hb]
  · intro h
    cases hb : res.body <;> simp [DomainRecord.get, h, hb]

/-- Witness for C7: a 200 response with a parseable body is classified as
Ok(Some(record)) by the theorem. -/
theorem c7_witness :
    DomainRecord.get (.ok ⟨200, some emptyRecord⟩) = .ok (some emptyRecord) :=
  (c7_get_classification ⟨200, some emptyRecord⟩).2.1 (by decide)

/-! ## Helper lemmas for the structured-value parser (claims C8, C9) -/

/-- Splitting a separator-free list yields the list itself as the only
piece. -/
theorem splitOnPred_not_mem (p : Char → Bool) (s : List Char)
    (h : ∀ c ∈ s, p c = false) : splitOnPred p s = [s] := by
  induction s with
  | nil => rfl
  | cons c t ih =>
    have hc : p c = false := h c (List.mem_cons_self _ _)
    have ht := ih (fun x hx => h x (List.mem_cons_of_mem _ hx))
    simp [splitOnPred, hc, ht]

/-- Splitting at the first separator: a separator-free prefix becomes the
first piece. -/
theorem splitOnPred_append (p : Char → Bool) (xs ys : List Char) (d : Char)
    (hxs : ∀ c ∈ xs, p c = false) (hd : p d = true) :
    splitOnPred p (xs ++ d :: ys) = xs :: splitOnPred p ys := by
  induction xs with
  | nil => simp [splitOnPred, hd]
  | cons a t ih =>
    have ha : p a = false := hxs a (List.mem_cons_self _ _)
    have ht := ih (fun x hx => hxs x (List.mem_cons_of_mem _ hx))
    simp [splitOnPred, ha, ht]

/-- The split of a list is never the empty list of pieces. -/
theorem splitOnPred_ne_nil (p : Char → Bool) (s : List Char) :
    splitOnPred p s ≠ [] := by
  cases s with
  | nil => simp [splitOnPred]
  | cons c t =>
    simp only [splitOnPred]
    by_cases hc : p c = true
    · simp [hc]
    · rcases hr : splitOnPred p t with _ | ⟨h1, t1⟩ <;> simp [hc, hr]

/-- The number of pieces is one more than the number of separators. -/
theorem splitOnPred_length (p : Char → Bool) (s : List Char) :
    (splitOnPred p s).length = s.countP p + 1 := by
  induction s with
  | nil => simp [splitOnPred]
  | cons c t ih =>
    by_cases hc : p c = true
    · simp [splitOnPred, hc, ih, List.countP_cons]
    · rcases hr : splitOnPred p t with _ | ⟨h1, t1⟩
      · exact absurd hr (splitOnPred_ne_nil p t)
      · rw [hr] at ih
        simp [splitOnPred, hc, hr, List.countP_cons] at ih ⊢
        omega

/-- Splitting a run of separators yields only empty pieces. -/
theorem splitOnPred_replicate_dot (k : ℕ) :
    splitOnPred (fun c => c == '.') (List.replicate k '.') =
      List.replicate (k + 1) ([] : List Char) := by
  induction k with
  | zero => rfl
  | succ n ih => simp [splitOnPred, List.replicate_succ, ih]

/-- An ASCII digit is not the dot character. -/
theorem digit_ne_dot (c : Char) (h : isAsciiDigit c = true) : (c == '.') = false := by
  rcases Bool.eq_false_or_eq_true (c == '.') with ht | hf
  · exfalso
    have : c = '.' := eq_of_beq ht
    subst this
    exact absurd h (by decide)
  · exact hf

/-- The value of an ASCII digit is at most nine. -/
theorem digitVal_le (c : Char) (h : isAsciiDigit c = true) : digitVal c ≤ 9 := by
  simp only [isAsciiDigit, Bool.and_eq_true, decide_eq_true_eq] at h
  unfold digitVal
  have h9 : ('9' : Char).toNat = 57 := by decide
  have h0 : ('0' : Char).toNat = 48 := by decide
  have hle : c.toNat ≤ 57 := by
    have := h.2
    rw [Char.le_def] at this
    simpa [h9] using this
  omega

/-- Bound on the base-10 fold of a digit list, with a general
accumulator. -/
theorem digitsFold_lt : ∀ l : List Char, l.all isAsciiDigit = true →
    ∀ a : ℕ, l.foldl (fun a c => 10 * a + digitVal c) a < (a + 1) * 10 ^ l.length := by
  intro l
  induction l with
  | nil => intro _ a; simp
  | cons c t ih =>
    intro hl a
    rw [List.all_cons, Bool.and_eq_true] at hl
    have hc : digitVal c ≤ 9 := digitVal_le c hl.1
    have ht := ih hl.2 (10 * a + digitVal c)
    have hmul : (10 * a + digitVal c + 1) * 10 ^ t.length ≤ ((a + 1) * 10) * 10 ^ t.length :=
      Nat.mul_le_mul_right _ (by omega)
    calc List.foldl (fun a c => 10 * a + digitVal c) a (c :: t)
        = List.foldl (fun a c => 10 * a + digitVal c) (10 * a + digitVal c) t := by
          rw [List.foldl_cons]
      _ < (10 * a + digitVal c + 1) * 10 ^ t.length := ht
      _ ≤ ((a + 1) * 10) * 10 ^ t.length := hmul
      _ = (a + 1) * 10 ^ (c :: t).length := by
          rw [List.length_cons, pow_succ]
          ring

/-- Bound on the value of a digit list of bounded length. -/
theorem digitsVal_lt (l : List Char) (h : l.all isAsciiDigit = true) :
    digitsVal l < 10 ^ l.length :=
  by simpa [digitsVal] using digitsFold_lt l h 0

/-- A successfully parsed decimal literal has a nonnegative value. -/
theorem parseDecimal_nonneg (s : List Char) (q : ℚ) (h : parseDecimal s = some q) :
    0 ≤ q := by
  unfold parseDecimal at h
  split at h
  · split_ifs at h
    injection h with h
    subst h
    positivity
  · split_ifs at h
    injection h with h
    subst h
    rw [parseDecimal_frac_value]
    positivity
  · cases h

/-- A successfully parsed price amount is nonnegative (or infinite, which
the Nonneg predicate does not exclude). -/
theorem parse_dollars_nonneg (s : List Char) (f : F64) (h : parse_dollars s = some f) :
    f.Nonneg := by
  unfold parse_dollars at h
  rcases Option.map_eq_some'.mp h with ⟨q, hq, hr⟩
  rw [← hr]
  unfold roundF64
  split_ifs
  · trivial
  · exact parseDecimal_nonneg _ _ hq

/-! ## Claim C8 -/

set_option maxRecDepth 40000 in
/-- C8 counterexample: the claim asserts that every accepted Money amount
is finite.  The amount parser does not guard against f64 overflow: the
421-bit price string consisting of a one followed by 320 zeros is accepted
by Money::from_str, and its amount is infinite (Rust str::parse::<f64>
returns infinity for decimal literals beyond the double range). -/
theorem c8_counterexample :
    Money.from_str ('1' :: List.replicate 320 '0') =
      .ok ⟨Currency.USD, F64.inf⟩ := by
  decide

/-- C8 (amended): every price string accepted to form a Money value, via
Money::from_str or the microdata Scope conversion, has a nonnegative
amount, and parse failure yields an error value, never a fabricated
zero-valued Money; the amount is however not always finite — a price
string whose numeric value reaches the f64 overflow threshold yields an
infinite amount (see the counterexample). -/
theorem c8_money_nonneg :
    (∀ s : List Char, ∀ m : Money, Money.from_str s = .ok m → m.amount.Nonneg)
  ∧ (∀ sc : Scope, ∀ m : Money, Money.try_from_scope sc = .ok m → m.amount.Nonneg) := by
  constructor
  · intro s m h
    unfold Money.from_str at h
    split at h
    case _ price hfind =>
      rcases List.exists_of_findSome?_eq_some hfind with ⟨t, _, hparse⟩
      split_ifs at hparse
      injection h with h
      rw [← h]
      exact parse_dollars_nonneg t price hparse
    case _ => cases h
  · intro sc m h
    unfold Money.try_from_scope at h
    split at h
    · cases h
    case _ price hp =>
      split at h
      case _ cur hcur =>
        split at h
        case _ dollars hdollars =>
          injection h with h
          rw [← h]
          exact parse_dollars_nonneg price dollars hdollars
        case _ => cases h
      case _ =>
        unfold Money.from_str at h
        split at h
        case _ price2 hfind =>
          rcases List.exists_of_findSome?_eq_some hfind with ⟨t, _, hparse⟩
          split_ifs at hparse
          injection h with h
          rw [← h]
          exact parse_dollars_nonneg t price2 hparse
        case _ => cases h

set_option maxRecDepth 40000 in
/-- Witness for C8: a concrete accepted price with its nonnegative
amount. -/
theorem c8_witness :
    Money.from_str "$3.50".data = .ok ⟨Currency.USD, F64.val (mkRat 7 2)⟩ ∧
    (F64.val (mkRat 7 2)).Nonneg :=
  ⟨by decide, c8_money_nonneg.1 "$3.50".data ⟨Currency.USD, F64.val (mkRat 7 2)⟩ (by decide)⟩

/-! ## Claim C9 -/

set_option maxRecDepth 40000 in
/-- C9 counterexample: the claim quantifies over every well-formed price
string of the shape dollar sign, digits, dot, two digits.  For the
321-digit integer part consisting of a one and 320 zeros, the exact value
exceeds the f64 overflow threshold and the parser returns infinity rather
than a finite amount within a cent of the written value (Rust
str::parse::<f64> overflows to infinity), so cent-precision recovery fails
at this input. -/
theorem c9_counterexample :
    parse_dollars ('$' :: ('1' :: List.replicate 320 '0') ++ ['.', '2', '5']) =
      some F64.inf := by
  decide

/-- C9 (amended): for every well-formed price string of the form dollar
sign, then an integer part of at most 13 digits, then a dot and two more
digits, parse_dollars recovers exactly the written value (in particular to
cent precision; 13 digits keeps the value far below the range where f64
rounding could reach a cent); the multi-dot input 8.8.4.4 yields absence;
any input whose kept characters contain two or more dots yields absence;
and any input with no digit at all yields absence.  The embedding is a
total function, so no input panics. -/
theorem c9_price_recovery :
    (∀ xs : List Char, ∀ y z : Char, xs ≠ [] → xs.length ≤ 13 →
      xs.all isAsciiDigit = true → isAsciiDigit y = true → isAsciiDigit z = true →
      parse_dollars ('$' :: xs ++ ['.', y, z]) =
        some (F64.val ((digitsVal xs : ℚ) + ((10 * digitVal y + digitVal z : ℕ) : ℚ) / 100)))
  ∧ parse_dollars "8.8.4.4".data = none
  ∧ (∀ s : List Char,
      2 ≤ (s.filter (fun c => isAsciiDigit c || c == '.')).countP (fun c => c == '.') →
      parse_dollars s = none)
  ∧ (∀ s : List Char, (∀ c ∈ s, isAsciiDigit c = false) → parse_dollars s = none) := by
  refine ⟨?_, by decide, ?_, ?_⟩
  · intro xs y z hne hlen hxs hy hz
    have hkeep : ∀ c ∈ xs, (isAsciiDigit c || c == '.') = true := by
      intro c hc
      rw [List.all_eq_true] at hxs
      simp [hxs c hc]
    have hfilter :
        ('$' :: xs ++ ['.', y, z]).filter (fun c => isAsciiDigit c || c == '.') =
          xs ++ ['.', y, z] := by
      have hx : xs.filter (fun c => isAsciiDigit c || c == '.') = xs :=
        List.filter_eq_self.mpr hkeep
      simp +decide [List.filter_cons, List.filter_append, hx, hy, hz]
    have hnodot : ∀ c ∈ xs, (c == '.') = false := by
      intro c hc
      rw [List.all_eq_true] at hxs
      exact digit_ne_dot c (hxs c hc)
    have hsplit :
        splitOnPred (fun c => c == '.') (xs ++ ['.', y, z]) = [xs, [y, z]] := by
      have h1 : splitOnPred (fun c => c == '.') (xs ++ '.' :: [y, z]) =
          xs :: splitOnPred (fun c => c == '.') [y, z] :=
        splitOnPred_append _ xs [y, z] '.' hnodot (by decide)
      have h2 : splitOnPred (fun c => c == '.') [y, z] = [[y, z]] :=
        splitOnPred_not_mem _ [y, z] (by
          intro c hc
          rcases List.mem_pair.mp hc with rfl | rfl
          · exact digit_ne_dot c hy
          · exact digit_ne_dot c hz)
      simpa [h2] using h1
    have hcond : (!(xs ++ [y, z]).isEmpty && (xs ++ [y, z]).all isAsciiDigit) = true := by
      simp only [Bool.and_eq_true, List.all_append, List.all_cons, List.all_nil]
      refine ⟨by simp [List.isEmpty_eq_true, hne], ?_⟩
      simp [hxs, hy, hz]
    have hparse :
        parseDecimal (xs ++ ['.', y, z]) =
          some (mkRat ((digitsVal xs * 10 ^ 2 + digitsVal [y, z] : ℕ) : ℤ) (10 ^ 2)) := by
      unfold parseDecimal
      rw [hsplit]
      simp only [hcond, if_true, List.length_cons, List.length_nil]
    have hyz : digitsVal [y, z] = 10 * digitVal y + digitVal z := by
      simp [digitsVal]
    have hq : (mkRat ((digitsVal xs * 10 ^ 2 + digitsVal [y, z] : ℕ) : ℤ) (10 ^ 2) : ℚ) =
        (digitsVal xs : ℚ) + ((10 * digitVal y + digitVal z : ℕ) : ℚ) / 100 := by
      have := parseDecimal_frac_value xs [y, z]
      simp only [List.length_cons, List.length_nil] at this
      rw [this, hyz]
      norm_num
    have hlt : (digitsVal xs : ℚ) + ((10 * digitVal y + digitVal z : ℕ) : ℚ) / 100 <
        (10 : ℚ) ^ 14 := by
      have h1 : digitsVal xs < 10 ^ 13 := by
        calc digitsVal xs < 10 ^ xs.length := digitsVal_lt xs hxs
        _ ≤ 10 ^ 13 := Nat.pow_le_pow_right (by omega) hlen
      have h1q : (digitsVal xs : ℚ) < (10 : ℚ) ^ 13 := by
        have := (Nat.cast_lt (α := ℚ)).mpr h1
        push_cast at this
        exact this
      have h2 : (10 * digitVal y + digitVal z : ℕ) ≤ 99 := by
        have := digitVal_le y hy
        have := digitVal_le z hz
        omega
      have h2q : ((10 * digitVal y + digitVal z : ℕ) : ℚ) / 100 < 1 := by
        have hle : ((10 * digitVal y + digitVal z : ℕ) : ℚ) ≤ 99 := by
          exact_mod_cast (Nat.cast_le (α := ℚ)).mpr h2
        linarith
      have h3 : (10 : ℚ) ^ 13 + 1 ≤ (10 : ℚ) ^ 14 := by norm_num
      linarith
    have hbound : ¬ (f64OverflowBound ≤
        (digitsVal xs : ℚ) + ((10 * digitVal y + digitVal z : ℕ) : ℚ) / 100) := by
      have hb : (10 : ℚ) ^ 14 ≤ f64OverflowBound := by
        unfold f64OverflowBound
        have hnat : (10 : ℕ) ^ 14 ≤ (2 ^ 54 - 1) * 2 ^ 970 := by
          have h1 : (10 : ℕ) ^ 14 ≤ 2 ^ 54 - 1 := by norm_num
          have h2 : 1 ≤ (2 : ℕ) ^ 970 := Nat.one_le_pow 970 2 (by omega)
          calc (10 : ℕ) ^ 14 ≤ (2 ^ 54 - 1) * 1 := by rw [Nat.mul_one]; exact h1
          _ ≤ (2 ^ 54 - 1) * 2 ^ 970 := Nat.mul_le_mul_left _ h2
        have hcast := (Nat.cast_le (α := ℚ)).mpr hnat
        rw [Nat.cast_pow, Nat.cast_ofNat] at hcast
        exact hcast
      linarith
    unfold parse_dollars
    rw [hfilter, hparse]
    simp only [Option.map_some']
    unfold roundF64
    rw [hq, if_neg hbound]
  · intro s hcount
    unfold parse_dollars
    have hlen3 : 3 ≤ (splitOnPred (fun c => c == '.')
        (s.filter (fun c => isAsciiDigit c || c == '.'))).length := by
      rw [splitOnPred_length]
      omega
    unfold parseDecimal
    rcases hsp : splitOnPred (fun c => c == '.')
        (s.filter (fun c => isAsciiDigit c || c == '.')) with _ | ⟨a, _ | ⟨b, _ | ⟨c3, r3⟩⟩⟩
    · rw [hsp] at hlen3; simp at hlen3
    · rw [hsp] at hlen3; simp at hlen3
    · rw [hsp] at hlen3; simp at hlen3
    · rfl
  · intro s hnod
    have hdots : ∀ c ∈ s.filter (fun c => isAsciiDigit c || c == '.'), c = '.' := by
      intro c hc
      rw [List.mem_filter] at hc
      have h1 := hnod c hc.1
      have h2 := hc.2
      rw [h1] at h2
      simp only [Bool.false_or] at h2
      exact eq_of_beq h2
    have hrep : s.filter (fun c => isAsciiDigit c || c == '.') =
        List.replicate (s.filter (fun c => isAsciiDigit c || c == '.')).length '.' :=
      List.eq_replicate_iff.mpr ⟨rfl, hdots⟩
    unfold parse_dollars
    rw [hrep]
    rcases hk : (s.filter (fun c => isAsciiDigit c || c == '.')).length with _ | _ | k
    · simp [parseDecimal, splitOnPred]
    · simp [parseDecimal, splitOnPred]
    · unfold parseDecimal
      rw [splitOnPred_replicate_dot]
      simp [List.replicate_succ]

/-- Witness for C9: the price string from the own test of the repository,
with integer part 312 and cents 03, applied to the first clause of the
theorem. -/
theorem c9_witness :
    parse_dollars ('$' :: ['3', '1', '2'] ++ ['.', '0', '3']) =
      some (F64.val ((digitsVal ['3', '1', '2'] : ℚ) +
        ((10 * digitVal '0' + digitVal '3' : ℕ) : ℚ) / 100)) :=
  c9_price_recovery.1 ['3', '1', '2'] '0' '3' (by decide) (by decide) (by decide)
    (by decide) (by decide)

/-! ## Claim C10 -/

/-- C10 counterexample: the claim says has_hidden_word returns a boolean
without panicking for every pair of input strings, including needles with
multi-byte characters.  For the needle and haystack U+00E9 the matched
first needle character occupies two bytes, the slice at byte index 1 is
not on a character boundary, and the source panics; the embedding returns
none instead of a boolean. -/
theorem c10_counterexample :
    has_hidden_word (String.mk [Char.ofNat 233]) (String.mk [Char.ofNat 233]) = none := by
  decide

/-- C10 (amended): for every needle all of whose characters are single
UTF-8 bytes, has_hidden_word returns a boolean without panicking: the
slice of the remaining needle at byte index 1 then always falls on a
character boundary. -/
theorem c10_no_panic (needle haystack : String)
    (h : ∀ ch ∈ needle.data, ch.utf8Size = 1) :
    (has_hidden_word needle haystack).isSome = true := by
  rw [has_hidden_word, hasHiddenWordRs_eq _ _ h]
  rfl

/-- Witness for C10: the needle the repository actually uses, against the
obfuscated haystack from the source comment. -/
theorem c10_witness : (has_hidden_word "Sponsored" "ddSQpOonhsortied").isSome = true :=
  c10_no_panic "Sponsored" "ddSQpOonhsortied" (by decide)

end Datacollect
